import Mathlib

/-!
Verification of the type-expression canonicalization and interning subsystem
(`LotusIR::Utils` in `core/graph/utils.cc`): the `StringRange` scanner, the
`OpUtils` parser/serializer pair over the textual type grammar, and the
canonical intern registry.  Characters are modelled as `Char`, C++
`std::string` as Lean `String` / `List Char`, fallible code (C++ `throw`)
as `Option`.
-/

namespace LotusIR

/-- C `isspace` on the ASCII whitespace characters. -/
def isspace (c : Char) : Bool :=
  c = ' ' || c = '\t' || c = '\n' || c = '\x0b' || c = '\x0c' || c = '\r'

/-- Model of `StringRange` (utils.cc:327-509): a zero-copy window over a
buffer.  `window` models the current `[m_data, m_data + m_size)` view; and
`captured` models the capture span `[m_start, m_end)` — in the source,
`LStrip` advances both `m_data` and `m_end`, so the capture span is exactly
the text consumed by left strips since the last `RestartCapture`. -/
structure StringRange where
  window : List Char
  captured : List Char
  deriving DecidableEq, Repr

namespace StringRange

/-- `StringRange::StartsWith` (utils.cc:391): bounded byte comparison. -/
def StartsWith (r : StringRange) (p : List Char) : Prop :=
  p.length ≤ r.window.length ∧ r.window.take p.length = p

instance (r : StringRange) (p : List Char) : Decidable (r.StartsWith p) :=
  inferInstanceAs (Decidable (_ ∧ _))

/-- `StringRange::EndsWith` (utils.cc:396). -/
def EndsWith (r : StringRange) (p : List Char) : Prop :=
  p.length ≤ r.window.length ∧ r.window.drop (r.window.length - p.length) = p

instance (r : StringRange) (p : List Char) : Decidable (r.EndsWith p) :=
  inferInstanceAs (Decidable (_ ∧ _))

/-- `StringRange::LStrip(size_t)` (utils.cc:417): advance the window start
(and the capture end `m_end`) by `n` if it fits, else a no-op returning
`false`. -/
def LStripN (r : StringRange) (n : Nat) : Bool × StringRange :=
  if n ≤ r.window.length then
    (true, ⟨r.window.drop n, r.captured ++ r.window.take n⟩)
  else (false, r)

/-- `StringRange::LStrip(StringRange)` (utils.cc:429): conditional
peek-and-consume of a literal. -/
def LStripLit (r : StringRange) (p : List Char) : Bool × StringRange :=
  if r.StartsWith p then r.LStripN p.length else (false, r)

/-- `StringRange::LStrip()` (utils.cc:402): strip leading whitespace. -/
def LStripWs (r : StringRange) : Bool × StringRange :=
  let n := (r.window.takeWhile isspace).length
  if 0 < n then r.LStripN n else (false, r)

/-- `StringRange::RStrip(size_t)` (utils.cc:452): shrink the window from the
right by `n` if it fits, else a no-op returning `false` (the capture span is
not affected). -/
def RStripN (r : StringRange) (n : Nat) : Bool × StringRange :=
  if n ≤ r.window.length then
    (true, ⟨r.window.take (r.window.length - n), r.captured⟩)
  else (false, r)

/-- `StringRange::RStrip(StringRange)` (utils.cc:462). -/
def RStripLit (r : StringRange) (p : List Char) : Bool × StringRange :=
  if r.EndsWith p then r.RStripN p.length else (false, r)

/-- `StringRange::RStrip()` (utils.cc:437): strip trailing whitespace. -/
def RStripWs (r : StringRange) : Bool × StringRange :=
  let n := (r.window.reverse.takeWhile isspace).length
  if 0 < n then r.RStripN n else (false, r)

/-- `StringRange::LAndRStrip` (utils.cc:470). -/
def LAndRStrip (r : StringRange) : Bool × StringRange :=
  let l := r.LStripWs
  let rr := l.2.RStripWs
  (l.1 || rr.1, rr.2)

/-- `StringRange::ParensWhitespaceStrip` (utils.cc:477). -/
def ParensWhitespaceStrip (r : StringRange) : StringRange :=
  let r1 := r.LStripWs.2
  let r2 := (r1.LStripLit ['(']).2
  let r3 := r2.LAndRStrip.2
  let r4 := (r3.RStripLit [')']).2
  r4.RStripWs.2

/-- `StringRange::Find` (utils.cc:486): index of the first occurrence of a
byte in the window; the `std::string::npos` sentinel is modelled as `none`. -/
def Find (r : StringRange) (c : Char) : Option Nat :=
  r.window.findIdx? (· == c)

/-- The `StringRange(const char*, size_t)` / `StringRange(const std::string&)`
constructors (utils.cc:331-342): bind the window and immediately trim
whitespace at both ends. -/
def ofList (l : List Char) : StringRange :=
  (StringRange.mk l []).LAndRStrip.2

/-- `StringRange::GetCaptured` (utils.cc:506): rebuild a `StringRange` from
the capture span (the constructor trims it). -/
def GetCaptured (r : StringRange) : StringRange :=
  ofList r.captured

end StringRange

/-- `TensorProto::DataType` (from `core/protobuf/graph.pb.h`): the primitive
element kinds handled in utils.cc, plus the `UNDEFINED` sentinel. -/
inductive DataType where
  | undefined
  | dtBool
  | dtString
  | float16
  | float
  | double
  | int8
  | int16
  | int32
  | int64
  | uint8
  | uint16
  | uint32
  | uint64
  | complex64
  | complex128
  deriving DecidableEq, Repr, Fintype

/-- Modelled from the spec: `TypesWrapper` (declared in `core/graph/op.h`,
which is not under src/) holds one canonical lowercase name per primitive
kind (`c_bool = "bool"`, …); spec §3 and §8 spell the names for float32 and
float64 as `float` and `double` (e.g. `tensor(float)`), matching the
`c_float` / `c_double` members used by the utils.cc switch. -/
structure TypesWrapper where
  c_bool : String := "bool"
  c_string : String := "string"
  c_float16 : String := "float16"
  c_float : String := "float"
  c_double : String := "double"
  c_int8 : String := "int8"
  c_int16 : String := "int16"
  c_int32 : String := "int32"
  c_int64 : String := "int64"
  c_uint8 : String := "uint8"
  c_uint16 : String := "uint16"
  c_uint32 : String := "uint32"
  c_uint64 : String := "uint64"
  c_complex64 : String := "complex64"
  c_complex128 : String := "complex128"
  deriving Repr

/-- Modelled from the spec: `TypesWrapper::GetTypesWrapper` returns the
process-wide instance carrying the canonical names. -/
def GetTypesWrapper : TypesWrapper := {}

/-- Modelled from the spec: `TypesWrapper::GetAllowedDataTypes`, the table of
registered primitive names ("the name table is total and injective", one
canonical name per registered kind; the utils.cc switch enumerates the
kinds). -/
def GetAllowedDataTypes : List String :=
  let t := GetTypesWrapper
  [t.c_float16, t.c_float, t.c_double,
   t.c_int8, t.c_int16, t.c_int32, t.c_int64,
   t.c_uint8, t.c_uint16, t.c_uint32, t.c_uint64,
   t.c_complex64, t.c_complex128,
   t.c_string, t.c_bool]

mutual

/-- `TypeProto` (the tagged variant of `core/protobuf/graph.pb.h` as consumed
by utils.cc): dense tensor, sparse tensor, sequence, map, record, union.
The `repeated ValueInfoProto` field/choice lists are modelled by the mutual
`FieldList` (an ordered list of name/type pairs). -/
inductive TypeProto where
  | tensorType (elemType : DataType)
  | sparseTensorType (elemType : DataType)
  | seqType (elemType : TypeProto)
  | mapType (keyType : DataType) (valueType : TypeProto)
  | recordType (field : FieldList)
  | unionType (choice : FieldList)
  deriving DecidableEq, Repr

/-- Ordered list of `ValueInfoProto` entries (a `name` plus a `type`) of a
record or union. -/
inductive FieldList where
  | nil
  | cons (name : String) (type : TypeProto) (rest : FieldList)
  deriving DecidableEq, Repr

end

namespace OpUtils

/-- `OpUtils::ToString(const TensorProto::DataType&)` (utils.cc:97-135): the
switch over the registered kinds returning the canonical name; the
`UNDEFINED` sentinel reaches the trailing `throw std::invalid_argument`,
modelled as `none`. -/
def ToStringData : DataType → Option String :=
  let t := GetTypesWrapper
  fun p => match p with
  | .dtBool => some t.c_bool
  | .dtString => some t.c_string
  | .float16 => some t.c_float16
  | .float => some t.c_float
  | .double => some t.c_double
  | .int8 => some t.c_int8
  | .int16 => some t.c_int16
  | .int32 => some t.c_int32
  | .int64 => some t.c_int64
  | .uint8 => some t.c_uint8
  | .uint16 => some t.c_uint16
  | .uint32 => some t.c_uint32
  | .uint64 => some t.c_uint64
  | .complex64 => some t.c_complex64
  | .complex128 => some t.c_complex128
  | .undefined => none

mutual

/-- `OpUtils::ToString(const TypeProto&)` (utils.cc:45-95): structural
recursion emitting the canonical string; a dense tensor is emitted as the
bare element name.  The `throw` on an unknown `TypeProto` and the
out-of-range `field(size-1)` access on an empty record/union are modelled as
`none`. -/
def ToString : TypeProto → Option String
  | .tensorType e => ToStringData e
  | .sparseTensorType e => (ToStringData e).map (fun s => "sparse(" ++ s ++ ")")
  | .seqType t => (ToString t).map (fun s => "seq(" ++ s ++ ")")
  | .mapType k v =>
      match ToStringData k, ToString v with
      | some ks, some vs => some ("map(" ++ ks ++ "," ++ vs ++ ")")
      | _, _ => none
  | .recordType fs => (ToStringFields fs).map (fun body => "record(" ++ body ++ ")")
  | .unionType cs => (ToStringFields cs).map (fun body => "union(" ++ body ++ ")")

/-- The field-emitting loop of `OpUtils::ToString` (utils.cc:62-91): every
field but the last is followed by a comma; an empty list indexes
`field(-1)` in the source (undefined behaviour), modelled as `none`. -/
def ToStringFields : FieldList → Option String
  | .nil => none
  | .cons n t .nil => (ToString t).map (fun ts => n ++ ":" ++ ts)
  | .cons n t (.cons n' t' r) =>
      match ToString t, ToStringFields (.cons n' t' r) with
      | some ts, some rest => some (n ++ ":" ++ ts ++ "," ++ rest)
      | _, _ => none

end

/-- `OpUtils::IsValidDataTypeString` (utils.cc:212-216): membership in the
allowed-names table. -/
def IsValidDataTypeString (s : String) : Bool :=
  GetAllowedDataTypes.contains s

/-- `OpUtils::FromString(const std::string&, TensorProto::DataType&)`
(utils.cc:253-325): reject names outside the allowed table (the `throw
std::invalid_argument`, modelled as `none`), then map the name through the
comparison chain; the final `else` arm yields the `UNDEFINED` sentinel. -/
def FromStringData (s : String) : Option DataType :=
  if ¬ IsValidDataTypeString s then none
  else
    let t := GetTypesWrapper
    if s = t.c_bool then some .dtBool
    else if s = t.c_float then some .float
    else if s = t.c_float16 then some .float16
    else if s = t.c_double then some .double
    else if s = t.c_int8 then some .int8
    else if s = t.c_int16 then some .int16
    else if s = t.c_int32 then some .int32
    else if s = t.c_int64 then some .int64
    else if s = t.c_string then some .dtString
    else if s = t.c_uint8 then some .uint8
    else if s = t.c_uint16 then some .uint16
    else if s = t.c_uint32 then some .uint32
    else if s = t.c_uint64 then some .uint64
    else if s = t.c_complex64 then some .complex64
    else if s = t.c_complex128 then some .complex128
    else some .undefined

/-- The `while (p_src.Size() > 0)` loop of `OpUtils::SplitRecords`
(utils.cc:218-251), fuel-indexed (each iteration consumes one character, so
a fuel equal to the window length runs the loop to completion): split on
commas only at parenthesis depth zero, pushing the captured span (excluding
the separating comma) and restarting the capture at each split. -/
def SplitRecordsAux : Nat → StringRange → Int → List StringRange → List StringRange
  | 0, r, _, acc => acc ++ [r.GetCaptured]
  | fuel + 1, r, parens, acc =>
    if 0 < r.window.length then
      if r.StartsWith [','] then
        if parens = 0 then
          SplitRecordsAux fuel ⟨(r.LStripLit [',']).2.window, []⟩ parens
            (acc ++ [r.GetCaptured])
        else SplitRecordsAux fuel (r.LStripLit [',']).2 parens acc
      else
        let l := r.LStripLit ['(']
        if l.1 then SplitRecordsAux fuel l.2 (parens + 1) acc
        else
          let l2 := r.LStripLit [')']
          if l2.1 then SplitRecordsAux fuel l2.2 (parens - 1) acc
          else SplitRecordsAux fuel (r.LStripN 1).2 parens acc
    else acc ++ [r.GetCaptured]

/-- `OpUtils::SplitRecords` (utils.cc:218-251): the initial `RestartCapture`
(capture span emptied), then the depth-aware comma split, then the final
push of the remaining capture. -/
def SplitRecords (r : StringRange) : List StringRange :=
  SplitRecordsAux r.window.length ⟨r.window, []⟩ 0 []

/-- The per-field body of the record/union branches of `OpUtils::FromString`
(utils.cc:167-177 and 184-194): each segment is split at its first `:` into
a (whitespace-trimmed) name and a sub-type text handed to the recursive
parser (`child`).  A segment with no `:` makes the source use
`std::string::npos` as a size (out of range, undefined behaviour), modelled
as failure. -/
def ParseFieldSegs (child : List Char → Option TypeProto) :
    List StringRange → Option FieldList
  | [] => some .nil
  | f :: rest =>
    match f.Find ':' with
    | none => none
    | some nameSize =>
      let n := StringRange.ofList (f.window.take nameSize)
      let f1 := (f.LStripN nameSize).2
      let f2 := (f1.LStripLit [':']).2
      match child f2.window, ParseFieldSegs child rest with
      | some t, some r => some (.cons (String.mk n.window) t r)
      | _, _ => none

/-- The body of `OpUtils::FromString(const std::string&, TypeProto&)`
(utils.cc:138-210) with the recursive call abstracted as `child`: bind a
trimming `StringRange` over the input, test the keyword tags in source
order (seq, map, record, union, sparse) by conditional strip, unwrap
parentheses and recurse per the matched production; with no tag the whole
window must be a bare primitive name, yielding a dense tensor.  A thrown
`std::invalid_argument` is `none`; a `Find` returning `npos` makes the
source build an out-of-range `StringRange` (undefined behaviour), modelled
as failure. -/
def FromStringStep (child : List Char → Option TypeProto) (l : List Char) :
    Option TypeProto :=
  let s := StringRange.ofList l
  let seqTag := s.LStripLit ("seq".toList)
  if seqTag.1 then
    let s2 := seqTag.2.ParensWhitespaceStrip
    (child s2.window).map TypeProto.seqType
  else
  let mapTag := s.LStripLit ("map".toList)
  if mapTag.1 then
    let s2 := mapTag.2.ParensWhitespaceStrip
    match s2.Find ',' with
    | none => none
    | some keySize =>
      let k := StringRange.ofList (s2.window.take keySize)
      let key := String.mk k.window
      let s3 := (s2.LStripN keySize).2
      let s4 := (s3.LStripLit [',']).2
      let v := StringRange.ofList s4.window
      match FromStringData key with
      | none => none
      | some kt => (child v.window).map (TypeProto.mapType kt)
  else
  let recTag := s.LStripLit ("record".toList)
  if recTag.1 then
    let s2 := recTag.2.ParensWhitespaceStrip
    (ParseFieldSegs child (SplitRecords s2)).map TypeProto.recordType
  else
  let uniTag := s.LStripLit ("union".toList)
  if uniTag.1 then
    let s2 := uniTag.2.ParensWhitespaceStrip
    (ParseFieldSegs child (SplitRecords s2)).map TypeProto.unionType
  else
  let spTag := s.LStripLit ("sparse".toList)
  if spTag.1 then
    let s2 := spTag.2.ParensWhitespaceStrip
    (FromStringData (String.mk s2.window)).map TypeProto.sparseTensorType
  else
    (FromStringData (String.mk s.window)).map TypeProto.tensorType

/-- Fuel-indexed recursion for `OpUtils::FromString`: each recursive call of
the source strips at least a keyword tag, so recursion depth is bounded by
the input length and the zero-fuel arm is unreachable from `FromString`. -/
def FromStringAux : Nat → List Char → Option TypeProto
  | 0, _ => none
  | fuel + 1, l => FromStringStep (FromStringAux fuel) l

/-- `OpUtils::FromString(const std::string&, TypeProto&)` (utils.cc:138-210). -/
def FromString (s : String) : Option TypeProto :=
  FromStringAux (s.length + 1) s.toList

/-- The state of `OpUtils::GetTypeStrToProtoMap` (utils.cc:14-19): the
process-wide map from canonical string to `TypeProto`, modelled as an
association list (created empty on first use, insert-only). -/
abbrev Registry := List (String × TypeProto)

/-- `OpUtils::ToType(const TypeProto&)` (utils.cc:21-29): serialize the
descriptor to its canonical string `typeStr`, insert `(typeStr, p)` if the
key is absent, and return the handle `&(map.find(typeStr)->first)`.  The
`PTYPE` handle — a stable pointer to the stored key, with two handles equal
iff the stored keys are equal — is modelled by the stored key string; the
serializer's `throw` is `none`. -/
def ToType (m : Registry) (p : TypeProto) : Option (Registry × String) :=
  match ToString p with
  | none => none
  | some typeStr =>
    if (m.lookup typeStr).isSome then some (m, typeStr)
    else some (m ++ [(typeStr, p)], typeStr)

/-- `OpUtils::ToType(const std::string&)` (utils.cc:31-36): parse the text
into a `TypeProto` and intern through `ToType(const TypeProto&)` — so the
registry key is the re-serialized canonical string of the parsed
descriptor, not the raw input text. -/
def ToTypeStr (m : Registry) (s : String) : Option (Registry × String) :=
  match FromString s with
  | none => none
  | some p => ToType m p

end OpUtils

/-- A field/choice name free of the grammar's delimiter characters
(`(`, `)`, `,`, `:`) and of whitespace: such names are transcribed verbatim
by the serializer and recovered exactly by the parser. -/
def NameOK (n : String) : Bool :=
  n.toList.all (fun c => !isspace c && c != '(' && c != ')' && c != ',' && c != ':')

mutual

/-- Well-formedness of a descriptor for the round-trip: every element kind
registered (not the `undefined` sentinel), records and unions non-empty,
and all field/choice names plain (`NameOK`). -/
def WF : TypeProto → Bool
  | .tensorType e => e != .undefined
  | .sparseTensorType e => e != .undefined
  | .seqType t => WF t
  | .mapType k v => k != .undefined && WF v
  | .recordType fs => !(fs matches .nil) && WFL fs
  | .unionType cs => !(cs matches .nil) && WFL cs

/-- Well-formedness of a field/choice list, entrywise. -/
def WFL : FieldList → Bool
  | .nil => true
  | .cons n t r => NameOK n && WF t && WFL r

end

/-! Scanner computation lemmas: how the `StringRange` operations behave on
whitespace-free windows of known shape. -/

/-- Whitespace-free character lists. -/
def WsFree (l : List Char) : Prop := ∀ c ∈ l, isspace c = false

instance (l : List Char) : Decidable (WsFree l) :=
  inferInstanceAs (Decidable (∀ c ∈ l, isspace c = false))

theorem wsFree_append {a b : List Char} :
    WsFree (a ++ b) ↔ WsFree a ∧ WsFree b := by
  constructor
  · intro h
    exact ⟨fun c hc => h c (List.mem_append.mpr (Or.inl hc)),
           fun c hc => h c (List.mem_append.mpr (Or.inr hc))⟩
  · rintro ⟨h1, h2⟩ c hc
    rcases List.mem_append.mp hc with h | h
    · exact h1 c h
    · exact h2 c h

theorem wsFree_nil : WsFree [] := by simp [WsFree]

theorem takeWhile_isspace_nil {l : List Char} (h : WsFree l) :
    l.takeWhile isspace = [] := by
  cases l with
  | nil => rfl
  | cons c t =>
      have hc : isspace c = false := h c (by simp)
      rw [List.takeWhile_cons_of_neg (by simp [hc])]

theorem LStripWs_wsFree {r : StringRange} (h : WsFree r.window) :
    r.LStripWs = (false, r) := by
  simp [StringRange.LStripWs, takeWhile_isspace_nil h]

theorem RStripWs_wsFree {r : StringRange} (h : WsFree r.window) :
    r.RStripWs = (false, r) := by
  have h' : WsFree r.window.reverse := by
    intro c hc; exact h c (List.mem_reverse.mp hc)
  simp [StringRange.RStripWs, takeWhile_isspace_nil h']

theorem LAndRStrip_wsFree {r : StringRange} (h : WsFree r.window) :
    r.LAndRStrip = (false, r) := by
  simp [StringRange.LAndRStrip, LStripWs_wsFree h, RStripWs_wsFree h]

theorem ofList_wsFree {l : List Char} (h : WsFree l) :
    StringRange.ofList l = ⟨l, []⟩ := by
  simp [StringRange.ofList, @LAndRStrip_wsFree ⟨l, []⟩ h]

theorem StartsWith_append (a b cap : List Char) :
    (StringRange.mk (a ++ b) cap).StartsWith a := by
  constructor
  · simp
  · exact List.take_left a b

theorem LStripN_append (a b cap : List Char) :
    (StringRange.mk (a ++ b) cap).LStripN a.length =
      (true, ⟨b, cap ++ a⟩) := by
  simp [StringRange.LStripN, List.take_left, List.drop_left]

theorem LStripLit_append (a b cap : List Char) :
    (StringRange.mk (a ++ b) cap).LStripLit a =
      (true, ⟨b, cap ++ a⟩) := by
  rw [StringRange.LStripLit, if_pos (StartsWith_append a b cap)]
  exact LStripN_append a b cap

theorem EndsWith_append (a b cap : List Char) :
    (StringRange.mk (a ++ b) cap).EndsWith b := by
  constructor
  · simp
  · have : (a ++ b).length - b.length = a.length := by simp
    rw [this]
    exact List.drop_left a b

theorem RStripN_append (a b cap : List Char) :
    (StringRange.mk (a ++ b) cap).RStripN b.length =
      (true, ⟨a, cap⟩) := by
  have hl : (a ++ b).length - b.length = a.length := by simp
  rw [StringRange.RStripN, if_pos (by simp : b.length ≤ (StringRange.mk (a ++ b) cap).window.length)]
  simp only [hl]
  rw [List.take_left]

theorem RStripLit_append (a b cap : List Char) :
    (StringRange.mk (a ++ b) cap).RStripLit b =
      (true, ⟨a, cap⟩) := by
  rw [StringRange.RStripLit, if_pos (EndsWith_append a b cap)]
  exact RStripN_append a b cap

/-- `ParensWhitespaceStrip` on a whitespace-free window `(` mid `)` exposes
`mid` (the `(` joins the capture span, the `)` does not). -/
theorem PWS_paren {mid cap : List Char} (h : WsFree mid) :
    (StringRange.mk ('(' :: (mid ++ [')'])) cap).ParensWhitespaceStrip
      = ⟨mid, cap ++ ['(']⟩ := by
  have hw : WsFree ('(' :: (mid ++ [')'])) := by
    intro c hc
    rcases List.mem_cons.mp hc with h1 | h2
    · subst h1; rfl
    · rcases (List.mem_append.mp h2) with h3 | h4
      · exact h c h3
      · simp only [List.mem_singleton] at h4; subst h4; rfl
  have hmid : WsFree (mid ++ [')']) := by
    intro c hc; exact hw c (List.mem_cons_of_mem _ hc)
  rw [StringRange.ParensWhitespaceStrip]
  rw [LStripWs_wsFree hw]
  have h1 : (StringRange.mk ('(' :: (mid ++ [')'])) cap).LStripLit ['(']
      = (true, ⟨mid ++ [')'], cap ++ ['(']⟩) := by
    have := LStripLit_append ['('] (mid ++ [')']) cap
    simpa using this
  rw [h1]
  rw [@LAndRStrip_wsFree ⟨mid ++ [')'], cap ++ ['(']⟩ hmid]
  rw [RStripLit_append mid [')'] (cap ++ ['('])]
  rw [@RStripWs_wsFree ⟨mid, cap ++ ['(']⟩ h]

theorem StartsWith_cons_single {c x : Char} {rest cap : List Char} :
    (StringRange.mk (c :: rest) cap).StartsWith [x] ↔ c = x := by
  constructor
  · rintro ⟨-, h⟩
    simpa [List.take] using h
  · rintro rfl
    exact ⟨by simp, by simp [List.take]⟩

theorem LStripLit_cons_single {x : Char} {rest cap : List Char} :
    (StringRange.mk (x :: rest) cap).LStripLit [x] = (true, ⟨rest, cap ++ [x]⟩) := by
  have := LStripLit_append [x] rest cap
  simpa using this

theorem LStripLit_cons_single_neg {c x : Char} {rest cap : List Char} (h : c ≠ x) :
    (StringRange.mk (c :: rest) cap).LStripLit [x] =
      (false, StringRange.mk (c :: rest) cap) := by
  rw [StringRange.LStripLit, if_neg (fun hs => h (StartsWith_cons_single.mp hs))]

theorem LStripN_cons_one {c : Char} {rest cap : List Char} :
    (StringRange.mk (c :: rest) cap).LStripN 1 = (true, ⟨rest, cap ++ [c]⟩) := by
  have := LStripN_append [c] rest cap
  simpa using this

/-! The depth-aware splitter, restated at the list level, and its
correctness on canonically-shaped interiors. -/

/-- List-level form of the `SplitRecords` loop: one constructor case per
loop iteration, the accumulated capture span threaded explicitly. -/
def splitD : List Char → Int → List Char → List StringRange
  | [], _, cap => [StringRange.ofList cap]
  | c :: rest, parens, cap =>
    if c = ',' then
      if parens = 0 then StringRange.ofList cap :: splitD rest parens []
      else splitD rest parens (cap ++ [c])
    else if c = '(' then splitD rest (parens + 1) (cap ++ [c])
    else if c = ')' then splitD rest (parens - 1) (cap ++ [c])
    else splitD rest parens (cap ++ [c])

theorem SplitRecordsAux_eq (w : List Char) :
    ∀ fuel, w.length ≤ fuel → ∀ parens cap acc,
      OpUtils.SplitRecordsAux fuel ⟨w, cap⟩ parens acc = acc ++ splitD w parens cap := by
  induction w with
  | nil =>
      intro fuel _ parens cap acc
      cases fuel with
      | zero => simp [OpUtils.SplitRecordsAux, splitD, StringRange.GetCaptured]
      | succ f => simp [OpUtils.SplitRecordsAux, splitD, StringRange.GetCaptured]
  | cons c rest ih =>
      intro fuel hfuel parens cap acc
      cases fuel with
      | zero => simp at hfuel
      | succ f =>
        have hf : rest.length ≤ f := by simpa using hfuel
        rw [OpUtils.SplitRecordsAux]
        rw [if_pos (by simp : 0 < (StringRange.mk (c :: rest) cap).window.length)]
        by_cases hc : c = ','
        · subst hc
          rw [if_pos (StartsWith_cons_single.mpr rfl)]
          by_cases hp : parens = 0
          · rw [if_pos hp]
            simp only [LStripLit_cons_single]
            rw [ih f hf parens [] (acc ++ [StringRange.GetCaptured ⟨',' :: rest, cap⟩])]
            rw [splitD, if_pos rfl, if_pos hp]
            simp [StringRange.GetCaptured]
          · rw [if_neg hp]
            simp only [LStripLit_cons_single]
            rw [ih f hf parens (cap ++ [',']) acc]
            rw [splitD, if_pos rfl, if_neg hp]
        · rw [if_neg (fun hs => hc (StartsWith_cons_single.mp hs))]
          by_cases ho : c = '('
          · subst ho
            simp only [LStripLit_cons_single, eq_self_iff_true, if_true]
            rw [ih f hf (parens + 1) (cap ++ ['(']) acc]
            have h1 : ¬(('(' : Char) = ',') := by decide
            rw [splitD, if_neg h1, if_pos rfl]
          · simp only [LStripLit_cons_single_neg ho, Bool.false_eq_true, if_false]
            by_cases hcl : c = ')'
            · subst hcl
              simp only [LStripLit_cons_single, eq_self_iff_true, if_true]
              rw [ih f hf (parens - 1) (cap ++ [')']) acc]
              have h1 : ¬((')' : Char) = ',') := by decide
              have h2 : ¬((')' : Char) = '(') := by decide
              rw [splitD, if_neg h1, if_neg h2, if_pos rfl]
            · simp only [LStripLit_cons_single_neg hcl, Bool.false_eq_true, if_false,
                LStripN_cons_one]
              rw [ih f hf parens (cap ++ [c]) acc]
              rw [splitD, if_neg hc, if_neg ho, if_neg hcl]

theorem SplitRecords_eq (w cap : List Char) :
    OpUtils.SplitRecords ⟨w, cap⟩ = splitD w 0 [] := by
  rw [OpUtils.SplitRecords, SplitRecordsAux_eq w w.length (le_refl _) 0 [] []]
  rfl

/-- Parenthesis-depth scan of the characters as the `SplitRecords` loop
counts them, failing at a comma or a closing parenthesis at non-positive
depth; returns the final depth. -/
def dRun : List Char → Int → Option Int
  | [], d => some d
  | c :: rest, d =>
    if c = ',' then (if 0 < d then dRun rest d else none)
    else if c = '(' then dRun rest (d + 1)
    else if c = ')' then (if 0 < d then dRun rest (d - 1) else none)
    else dRun rest d

theorem dRun_append (a : List Char) :
    ∀ b d, dRun (a ++ b) d = (dRun a d).bind (fun e => dRun b e) := by
  induction a with
  | nil => intro b d; simp [dRun]
  | cons c rest ih =>
      intro b d
      by_cases hc : c = ','
      · subst hc
        by_cases hd : (0 : Int) < d
        · rw [List.cons_append, dRun, if_pos rfl, if_pos hd, dRun, if_pos rfl, if_pos hd]
          exact ih b d
        · rw [List.cons_append, dRun, if_pos rfl, if_neg hd, dRun, if_pos rfl, if_neg hd]
          rfl
      · by_cases ho : c = '('
        · subst ho
          have h1 : ¬(('(' : Char) = ',') := by decide
          rw [List.cons_append, dRun, if_neg h1, if_pos rfl, dRun, if_neg h1, if_pos rfl]
          exact ih b (d + 1)
        · by_cases hcl : c = ')'
          · subst hcl
            have h1 : ¬((')' : Char) = ',') := by decide
            have h2 : ¬((')' : Char) = '(') := by decide
            by_cases hd : (0 : Int) < d
            · rw [List.cons_append, dRun, if_neg h1, if_neg h2, if_pos rfl, if_pos hd,
                dRun, if_neg h1, if_neg h2, if_pos rfl, if_pos hd]
              exact ih b (d - 1)
            · rw [List.cons_append, dRun, if_neg h1, if_neg h2, if_pos rfl, if_neg hd,
                dRun, if_neg h1, if_neg h2, if_pos rfl, if_neg hd]
              rfl
          · rw [List.cons_append, dRun, if_neg hc, if_neg ho, if_neg hcl,
              dRun, if_neg hc, if_neg ho, if_neg hcl]
            exact ih b d

theorem dRun_shift {l : List Char} :
    ∀ {d e : Int}, dRun l d = some e → dRun l (d + 1) = some (e + 1) := by
  induction l with
  | nil => intro d e h; simp [dRun] at h ⊢; omega
  | cons c rest ih =>
      intro d e h
      by_cases hc : c = ','
      · subst hc
        rw [dRun] at h ⊢
        rw [if_pos rfl] at h ⊢
        by_cases hd : (0 : Int) < d
        · rw [if_pos hd] at h
          rw [if_pos (by omega)]
          exact ih h
        · rw [if_neg hd] at h; exact absurd h (by simp)
      · by_cases ho : c = '('
        · subst ho
          have h1 : ¬(('(' : Char) = ',') := by decide
          rw [dRun] at h ⊢
          rw [if_neg h1, if_pos rfl] at h ⊢
          exact @ih (d + 1) e h
        · by_cases hcl : c = ')'
          · subst hcl
            have h1 : ¬((')' : Char) = ',') := by decide
            have h2 : ¬((')' : Char) = '(') := by decide
            rw [dRun] at h ⊢
            rw [if_neg h1, if_neg h2, if_pos rfl] at h ⊢
            by_cases hd : (0 : Int) < d
            · rw [if_pos hd] at h
              rw [if_pos (by omega)]
              have := @ih (d - 1) e h
              convert this using 2
              omega
            · rw [if_neg hd] at h; exact absurd h (by simp)
          · rw [dRun] at h ⊢
            rw [if_neg hc, if_neg ho, if_neg hcl] at h ⊢
            exact ih h

/-- A character that leaves the depth scan untouched. -/
def PlainChar (c : Char) : Prop := c ≠ ',' ∧ c ≠ '(' ∧ c ≠ ')'

instance (c : Char) : Decidable (PlainChar c) :=
  inferInstanceAs (Decidable (_ ∧ _ ∧ _))

theorem dRun_plain {a : List Char} (h : ∀ c ∈ a, PlainChar c) (d : Int) :
    dRun a d = some d := by
  induction a with
  | nil => rfl
  | cons c rest ih =>
      obtain ⟨h1, h2, h3⟩ := h c (by simp)
      rw [dRun, if_neg h1, if_neg h2, if_neg h3]
      exact ih (fun x hx => h x (List.mem_cons_of_mem _ hx))

/-- Scanning a depth-closed chunk `s` never splits: the whole of `s` joins
the capture span and the depth returns to the scan's result. -/
theorem splitD_consume {s : List Char} :
    ∀ {d e : Int} (cap rest : List Char), dRun s d = some e →
      splitD (s ++ rest) d cap = splitD rest e (cap ++ s) := by
  induction s with
  | nil =>
      intro d e cap rest h
      rw [dRun] at h
      injection h with h
      subst h
      simp
  | cons c s' ih =>
      intro d e cap rest h
      by_cases hc : c = ','
      · subst hc
        rw [dRun, if_pos rfl] at h
        by_cases hd : (0 : Int) < d
        · rw [if_pos hd] at h
          rw [List.cons_append, splitD, if_pos rfl, if_neg (by omega : ¬ d = 0)]
          rw [ih (cap ++ [',']) rest h]
          simp
        · rw [if_neg hd] at h; exact absurd h (by simp)
      · by_cases ho : c = '('
        · subst ho
          have h1 : ¬(('(' : Char) = ',') := by decide
          rw [dRun, if_neg h1, if_pos rfl] at h
          rw [List.cons_append, splitD, if_neg h1, if_pos rfl]
          rw [ih (cap ++ ['(']) rest h]
          simp
        · by_cases hcl : c = ')'
          · subst hcl
            have h1 : ¬((')' : Char) = ',') := by decide
            have h2 : ¬((')' : Char) = '(') := by decide
            rw [dRun, if_neg h1, if_neg h2, if_pos rfl] at h
            by_cases hd : (0 : Int) < d
            · rw [if_pos hd] at h
              rw [List.cons_append, splitD, if_neg h1, if_neg h2, if_pos rfl]
              rw [ih (cap ++ [')']) rest h]
              simp
            · rw [if_neg hd] at h; exact absurd h (by simp)
          · rw [dRun, if_neg hc, if_neg ho, if_neg hcl] at h
            rw [List.cons_append, splitD, if_neg hc, if_neg ho, if_neg hcl]
            rw [ih (cap ++ [c]) rest h]
            simp

theorem wsFree_cons {c : Char} {l : List Char} (h1 : isspace c = false)
    (h2 : WsFree l) : WsFree (c :: l) := by
  intro x hx
  rcases List.mem_cons.mp hx with rfl | hx
  · exact h1
  · exact h2 x hx

theorem findIdx_go {ch : Char} {a : List Char}
    (h : ∀ c ∈ a, (c == ch) = false) (b : List Char) :
    ∀ i, List.findIdx? (· == ch) (a ++ ch :: b) i = some (a.length + i) := by
  induction a with
  | nil => intro i; simp [List.findIdx?]
  | cons c rest ih =>
      intro i
      rw [List.cons_append, List.findIdx?, h c (by simp)]
      rw [ih (fun x hx => h x (List.mem_cons_of_mem _ hx)) (i + 1)]
      simp
      omega

/-- Unfolding equation of the fuel-indexed parser. -/
theorem FromStringAux_succ (fuel : Nat) (l : List Char) :
    OpUtils.FromStringAux (fuel + 1) l = OpUtils.FromStringStep (OpUtils.FromStringAux fuel) l :=
  rfl

/-! Branch computation lemmas for `FromStringStep` on canonically-shaped
whitespace-free inputs, one per grammar production. -/

theorem FromStringStep_seq {inner : List Char} (h : WsFree inner)
    (child : List Char → Option TypeProto) :
    OpUtils.FromStringStep child ('s' :: 'e' :: 'q' :: '(' :: (inner ++ [')'])) =
      (child inner).map TypeProto.seqType := by
  have hw : WsFree ('s' :: 'e' :: 'q' :: '(' :: (inner ++ [')'])) :=
    wsFree_cons rfl (wsFree_cons rfl (wsFree_cons rfl (wsFree_cons rfl
      (wsFree_append.mpr ⟨h, wsFree_cons rfl wsFree_nil⟩))))
  have e1 := ofList_wsFree hw
  have e2 : (StringRange.mk ('s' :: 'e' :: 'q' :: '(' ::(inner ++ [')'])) []).LStripLit ("seq".toList)
      = (true, ⟨'(' ::(inner ++ [')']), ['s','e','q']⟩) := by
    have h3 : ("seq".toList) = ['s','e','q'] := rfl
    rw [h3]
    exact LStripLit_append ['s','e','q'] ('(' ::(inner ++ [')'])) []
  have e3 : (StringRange.mk ('(' ::(inner ++ [')'])) ['s','e','q']).ParensWhitespaceStrip
      = ⟨inner, ['s','e','q','(']⟩ := @PWS_paren inner ['s','e','q'] h
  rw [OpUtils.FromStringStep]
  rw [e1, e2]
  rw [if_pos rfl]
  rw [e3]

theorem FromStringStep_sparse {nm : List Char} (h : WsFree nm)
    (child : List Char → Option TypeProto) :
    OpUtils.FromStringStep child
        ('s' :: 'p' :: 'a' :: 'r' :: 's' :: 'e' :: '(' :: (nm ++ [')'])) =
      (OpUtils.FromStringData (String.mk nm)).map TypeProto.sparseTensorType := by
  have hw : WsFree ('s' :: 'p' :: 'a' :: 'r' :: 's' :: 'e' :: '(' :: (nm ++ [')'])) :=
    wsFree_cons rfl (wsFree_cons rfl (wsFree_cons rfl (wsFree_cons rfl
      (wsFree_cons rfl (wsFree_cons rfl (wsFree_cons rfl
        (wsFree_append.mpr ⟨h, wsFree_cons rfl wsFree_nil⟩)))))))
  have e1 := ofList_wsFree hw
  have nsSeq : ¬ (StringRange.mk ('s' :: 'p' :: 'a' :: 'r' :: 's' :: 'e' :: '(' ::(nm ++ [')'])) []).StartsWith
      ("seq".toList) := by
    rintro ⟨-, ht⟩
    simp [List.take] at ht
  have nsMap : ¬ (StringRange.mk ('s' :: 'p' :: 'a' :: 'r' :: 's' :: 'e' :: '(' ::(nm ++ [')'])) []).StartsWith
      ("map".toList) := by
    rintro ⟨-, ht⟩
    simp [List.take] at ht
  have nsRec : ¬ (StringRange.mk ('s' :: 'p' :: 'a' :: 'r' :: 's' :: 'e' :: '(' ::(nm ++ [')'])) []).StartsWith
      ("record".toList) := by
    rintro ⟨-, ht⟩
    simp [List.take] at ht
  have nsUni : ¬ (StringRange.mk ('s' :: 'p' :: 'a' :: 'r' :: 's' :: 'e' :: '(' ::(nm ++ [')'])) []).StartsWith
      ("union".toList) := by
    rintro ⟨-, ht⟩
    simp [List.take] at ht
  have eSeqF := (StringRange.mk ('s' :: 'p' :: 'a' :: 'r' :: 's' :: 'e' :: '(' ::(nm ++ [')'])) []).LStripLit
  have e2 : (StringRange.mk ('s' :: 'p' :: 'a' :: 'r' :: 's' :: 'e' :: '(' ::(nm ++ [')'])) []).LStripLit
      ("sparse".toList) = (true, ⟨'(' ::(nm ++ [')']), ['s','p','a','r','s','e']⟩) := by
    have h3 : ("sparse".toList) = ['s','p','a','r','s','e'] := rfl
    rw [h3]
    exact LStripLit_append ['s','p','a','r','s','e'] ('(' ::(nm ++ [')'])) []
  have e3 : (StringRange.mk ('(' ::(nm ++ [')'])) ['s','p','a','r','s','e']).ParensWhitespaceStrip
      = ⟨nm, ['s','p','a','r','s','e','(']⟩ := @PWS_paren nm ['s','p','a','r','s','e'] h
  rw [OpUtils.FromStringStep]
  rw [e1]
  rw [StringRange.LStripLit, if_neg nsSeq, if_neg Bool.false_ne_true]
  rw [StringRange.LStripLit, if_neg nsMap, if_neg Bool.false_ne_true]
  rw [StringRange.LStripLit, if_neg nsRec, if_neg Bool.false_ne_true]
  rw [StringRange.LStripLit, if_neg nsUni, if_neg Bool.false_ne_true]
  rw [e2, if_pos rfl, e3]

theorem FromStringStep_record {body : List Char} (h : WsFree body)
    (child : List Char → Option TypeProto) :
    OpUtils.FromStringStep child
        ('r' :: 'e' :: 'c' :: 'o' :: 'r' :: 'd' :: '(' :: (body ++ [')'])) =
      (OpUtils.ParseFieldSegs child (splitD body 0 [])).map TypeProto.recordType := by
  have hw : WsFree ('r' :: 'e' :: 'c' :: 'o' :: 'r' :: 'd' :: '(' :: (body ++ [')'])) :=
    wsFree_cons rfl (wsFree_cons rfl (wsFree_cons rfl (wsFree_cons rfl
      (wsFree_cons rfl (wsFree_cons rfl (wsFree_cons rfl
        (wsFree_append.mpr ⟨h, wsFree_cons rfl wsFree_nil⟩)))))))
  have e1 := ofList_wsFree hw
  have nsSeq : ¬ (StringRange.mk ('r' :: 'e' :: 'c' :: 'o' :: 'r' :: 'd' :: '(' ::(body ++ [')'])) []).StartsWith
      ("seq".toList) := by
    rintro ⟨-, ht⟩
    simp [List.take] at ht
  have nsMap : ¬ (StringRange.mk ('r' :: 'e' :: 'c' :: 'o' :: 'r' :: 'd' :: '(' ::(body ++ [')'])) []).StartsWith
      ("map".toList) := by
    rintro ⟨-, ht⟩
    simp [List.take] at ht
  have e2 : (StringRange.mk ('r' :: 'e' :: 'c' :: 'o' :: 'r' :: 'd' :: '(' ::(body ++ [')'])) []).LStripLit
      ("record".toList) = (true, ⟨'(' ::(body ++ [')']), ['r','e','c','o','r','d']⟩) := by
    have h3 : ("record".toList) = ['r','e','c','o','r','d'] := rfl
    rw [h3]
    exact LStripLit_append ['r','e','c','o','r','d'] ('(' ::(body ++ [')'])) []
  have e3 : (StringRange.mk ('(' ::(body ++ [')'])) ['r','e','c','o','r','d']).ParensWhitespaceStrip
      = ⟨body, ['r','e','c','o','r','d','(']⟩ := @PWS_paren body ['r','e','c','o','r','d'] h
  have e4 : OpUtils.SplitRecords ⟨body, ['r','e','c','o','r','d','(']⟩ = splitD body 0 [] :=
    SplitRecords_eq body _
  rw [OpUtils.FromStringStep]
  rw [e1]
  rw [StringRange.LStripLit, if_neg nsSeq, if_neg Bool.false_ne_true]
  rw [StringRange.LStripLit, if_neg nsMap, if_neg Bool.false_ne_true]
  rw [e2, if_pos rfl, e3]
  simp only [e4]

theorem FromStringStep_union {body : List Char} (h : WsFree body)
    (child : List Char → Option TypeProto) :
    OpUtils.FromStringStep child
        ('u' :: 'n' :: 'i' :: 'o' :: 'n' :: '(' :: (body ++ [')'])) =
      (OpUtils.ParseFieldSegs child (splitD body 0 [])).map TypeProto.unionType := by
  have hw : WsFree ('u' :: 'n' :: 'i' :: 'o' :: 'n' :: '(' :: (body ++ [')'])) :=
    wsFree_cons rfl (wsFree_cons rfl (wsFree_cons rfl (wsFree_cons rfl
      (wsFree_cons rfl (wsFree_cons rfl
        (wsFree_append.mpr ⟨h, wsFree_cons rfl wsFree_nil⟩))))))
  have e1 := ofList_wsFree hw
  have nsSeq : ¬ (StringRange.mk ('u' :: 'n' :: 'i' :: 'o' :: 'n' :: '(' ::(body ++ [')'])) []).StartsWith
      ("seq".toList) := by
    rintro ⟨-, ht⟩
    simp [List.take] at ht
  have nsMap : ¬ (StringRange.mk ('u' :: 'n' :: 'i' :: 'o' :: 'n' :: '(' ::(body ++ [')'])) []).StartsWith
      ("map".toList) := by
    rintro ⟨-, ht⟩
    simp [List.take] at ht
  have nsRec : ¬ (StringRange.mk ('u' :: 'n' :: 'i' :: 'o' :: 'n' :: '(' ::(body ++ [')'])) []).StartsWith
      ("record".toList) := by
    rintro ⟨-, ht⟩
    simp [List.take] at ht
  have e2 : (StringRange.mk ('u' :: 'n' :: 'i' :: 'o' :: 'n' :: '(' ::(body ++ [')'])) []).LStripLit
      ("union".toList) = (true, ⟨'(' ::(body ++ [')']), ['u','n','i','o','n']⟩) := by
    have h3 : ("union".toList) = ['u','n','i','o','n'] := rfl
    rw [h3]
    exact LStripLit_append ['u','n','i','o','n'] ('(' ::(body ++ [')'])) []
  have e3 : (StringRange.mk ('(' ::(body ++ [')'])) ['u','n','i','o','n']).ParensWhitespaceStrip
      = ⟨body, ['u','n','i','o','n','(']⟩ := @PWS_paren body ['u','n','i','o','n'] h
  have e4 : OpUtils.SplitRecords ⟨body, ['u','n','i','o','n','(']⟩ = splitD body 0 [] :=
    SplitRecords_eq body _
  rw [OpUtils.FromStringStep]
  rw [e1]
  rw [StringRange.LStripLit, if_neg nsSeq, if_neg Bool.false_ne_true]
  rw [StringRange.LStripLit, if_neg nsMap, if_neg Bool.false_ne_true]
  rw [StringRange.LStripLit, if_neg nsRec, if_neg Bool.false_ne_true]
  rw [e2, if_pos rfl, e3]
  simp only [e4]

theorem FromStringStep_map {ks vs : List Char} (hk : WsFree ks)
    (hkc : ∀ c ∈ ks, (c == ',') = false) (hv : WsFree vs)
    (child : List Char → Option TypeProto) :
    OpUtils.FromStringStep child ('m' :: 'a' :: 'p' :: '(' :: ((ks ++ ',' :: vs) ++ [')'])) =
      (match OpUtils.FromStringData (String.mk ks) with
       | none => none
       | some kt => (child vs).map (TypeProto.mapType kt)) := by
  have hmid : WsFree (ks ++ ',' :: vs) := wsFree_append.mpr ⟨hk, wsFree_cons rfl hv⟩
  have hw : WsFree ('m' :: 'a' :: 'p' :: '(' :: ((ks ++ ',' :: vs) ++ [')'])) :=
    wsFree_cons rfl (wsFree_cons rfl (wsFree_cons rfl (wsFree_cons rfl
      (wsFree_append.mpr ⟨hmid, wsFree_cons rfl wsFree_nil⟩))))
  have e1 := ofList_wsFree hw
  have nsSeq : ¬ (StringRange.mk ('m' :: 'a' :: 'p' :: '(' ::((ks ++ ',' ::vs) ++ [')'])) []).StartsWith
      ("seq".toList) := by
    rintro ⟨-, ht⟩
    simp [List.take] at ht
  have e2 : (StringRange.mk ('m' :: 'a' :: 'p' :: '(' ::((ks ++ ',' ::vs) ++ [')'])) []).LStripLit
      ("map".toList) = (true, ⟨'(' ::((ks ++ ',' ::vs) ++ [')']), ['m','a','p']⟩) := by
    have h3 : ("map".toList) = ['m','a','p'] := rfl
    rw [h3]
    exact LStripLit_append ['m','a','p'] ('(' ::((ks ++ ',' ::vs) ++ [')'])) []
  have e3 : (StringRange.mk ('(' ::((ks ++ ',' ::vs) ++ [')'])) ['m','a','p']).ParensWhitespaceStrip
      = ⟨ks ++ ',' ::vs, ['m','a','p','(']⟩ := @PWS_paren (ks ++ ',' :: vs) ['m','a','p'] hmid
  have eFind : (StringRange.mk (ks ++ ',' ::vs) ['m','a','p','(']).Find ',' = some ks.length := by
    rw [StringRange.Find]
    have := findIdx_go hkc vs 0
    simpa using this
  have eTake : (ks ++ ',' ::vs).take ks.length = ks := List.take_left ks _
  have eStripN : (StringRange.mk (ks ++ ',' ::vs) ['m','a','p','(']).LStripN ks.length
      = (true, ⟨',' ::vs, ['m','a','p','('] ++ ks⟩) := by
    have := LStripN_append ks (',' ::vs) ['m','a','p','(']
    simpa [eTake] using this
  have eComma : (StringRange.mk (',' ::vs) (['m','a','p','('] ++ ks)).LStripLit [',']
      = (true, ⟨vs, (['m','a','p','('] ++ ks) ++ [',']⟩) := LStripLit_cons_single
  have ev : StringRange.ofList vs = ⟨vs, []⟩ := ofList_wsFree hv
  have ek : StringRange.ofList ks = ⟨ks, []⟩ := ofList_wsFree hk
  rw [OpUtils.FromStringStep]
  rw [e1]
  rw [StringRange.LStripLit, if_neg nsSeq, if_neg Bool.false_ne_true]
  rw [e2, if_pos rfl, e3]
  show (match (StringRange.mk (ks ++ ',' ::vs) ['m','a','p','(']).Find ',' with
    | none => none
    | some keySize =>
      let k := StringRange.ofList ((StringRange.mk (ks ++ ',' ::vs) ['m','a','p','(']).window.take keySize)
      let key := String.mk k.window
      let s3 := ((StringRange.mk (ks ++ ',' ::vs) ['m','a','p','(']).LStripN keySize).2
      let s4 := (s3.LStripLit [',']).2
      let v := StringRange.ofList s4.window
      match OpUtils.FromStringData key with
      | none => none
      | some kt => (child v.window).map (TypeProto.mapType kt)) = _
  rw [eFind]
  show (let k := StringRange.ofList ((ks ++ ',' ::vs).take ks.length)
    let key := String.mk k.window
    let s3 := ((StringRange.mk (ks ++ ',' ::vs) ['m','a','p','(']).LStripN ks.length).2
    let s4 := (s3.LStripLit [',']).2
    let v := StringRange.ofList s4.window
    match OpUtils.FromStringData key with
    | none => none
    | some kt => (child v.window).map (TypeProto.mapType kt)) = _
  rw [eTake, ek, eStripN]
  show (let s4 := ((StringRange.mk (',' ::vs) (['m','a','p','('] ++ ks)).LStripLit [',']).2
    let v := StringRange.ofList s4.window
    match OpUtils.FromStringData (String.mk ks) with
    | none => none
    | some kt => (child v.window).map (TypeProto.mapType kt)) = _
  rw [eComma]
  show (let v := StringRange.ofList vs
    match OpUtils.FromStringData (String.mk ks) with
    | none => none
    | some kt => (child v.window).map (TypeProto.mapType kt)) = _
  rw [ev]


/-! The canonical-string invariants and the round-trip, by mutual induction
over `TypeProto` / `FieldList`. -/

/-- For every registered kind the serializer emits a name that is
whitespace-free and delimiter-free, and the parser chain maps it back. -/
theorem prim_facts (e : DataType) (he : (e != DataType.undefined) = true) :
    ∃ nm, OpUtils.ToStringData e = some nm ∧ WsFree nm.toList ∧
      (∀ c ∈ nm.toList, PlainChar c ∧ (c == ',') = false ∧ (c == ':') = false) ∧
      OpUtils.FromStringData nm = some e := by
  cases e
  case undefined => exact absurd he (by decide)
  all_goals exact ⟨_, rfl, by decide, by decide, by decide⟩

theorem NameOK_chars {n : String} (h : NameOK n = true) :
    ∀ c ∈ n.toList, isspace c = false ∧ PlainChar c ∧
      (c == ':') = false ∧ (c == ',') = false := by
  intro c hc
  have h1 := (List.all_eq_true.mp h) c hc
  simp only [Bool.and_eq_true, Bool.not_eq_true', bne_iff_ne, ne_eq] at h1
  obtain ⟨⟨⟨⟨hs, ho⟩, hcl⟩, hcm⟩, hco⟩ := h1
  exact ⟨hs, ⟨hcm, ho, hcl⟩,
    beq_eq_false_iff_ne.mpr hco, beq_eq_false_iff_ne.mpr hcm⟩

/-- Round-trip property of a descriptor: its canonical string is
whitespace-free, depth-closed, and parses back to it with any sufficient
fuel. -/
def RTP (T : TypeProto) : Prop :=
  WF T = true → ∀ s : String, OpUtils.ToString T = some s →
    WsFree s.toList ∧ dRun s.toList 0 = some 0 ∧
    ∀ fuel, s.toList.length < fuel → OpUtils.FromStringAux fuel s.toList = some T

/-- Round-trip property of a field list: its serialized interior is
whitespace-free, depth-closed at depth 1, and the depth-aware split
followed by per-field parsing recovers it. -/
def RTQ (fs : FieldList) : Prop :=
  WFL fs = true → ∀ body : String, OpUtils.ToStringFields fs = some body →
    WsFree body.toList ∧ dRun body.toList 1 = some 1 ∧
    ∀ fuel, body.toList.length ≤ fuel →
      OpUtils.ParseFieldSegs (OpUtils.FromStringAux fuel) (splitD body.toList 0 [])
        = some fs

theorem RTP_tensor (e : DataType) : RTP (.tensorType e) := by
  cases e
  case undefined => intro hwf; exact absurd hwf (by decide)
  all_goals
    intro _ s hs
    injection hs with h
    subst h
    refine ⟨by decide, by decide, ?_⟩
    intro fuel hf
    match fuel, hf with
    | fuel + 1, _ => exact rfl

theorem RTP_sparse (e : DataType) : RTP (.sparseTensorType e) := by
  cases e
  case undefined => intro hwf; exact absurd hwf (by decide)
  all_goals
    intro _ s hs
    injection hs with h
    subst h
    refine ⟨by decide, by decide, ?_⟩
    intro fuel hf
    match fuel, hf with
    | fuel + 1, _ => exact rfl

theorem RTP_seq (t : TypeProto) (ih : RTP t) : RTP (.seqType t) := by
  intro hwf s hs
  have hwt : WF t = true := hwf
  simp only [OpUtils.ToString] at hs
  obtain ⟨ts, hts, rfl⟩ := Option.map_eq_some'.mp hs
  obtain ⟨w1, w2, w3⟩ := ih hwt ts hts
  have hlist : ("seq(" ++ ts ++ ")").toList = 's' :: 'e' :: 'q' :: '(' ::(ts.toList ++ [')']) := by
    simp [String.toList, String.data_append]
  have happ : ("seq(" ++ ts ++ ")").toList = ['s','e','q','('] ++ (ts.toList ++ [')']) := hlist
  have w2' : dRun ts.toList 1 = some 1 := by
    have := dRun_shift w2
    simpa using this
  refine ⟨?_, ?_, ?_⟩
  · rw [hlist]
    exact wsFree_cons rfl (wsFree_cons rfl (wsFree_cons rfl (wsFree_cons rfl
      (wsFree_append.mpr ⟨w1, wsFree_cons rfl wsFree_nil⟩))))
  · rw [happ, dRun_append]
    rw [show dRun ['s','e','q','('] 0 = some 1 from by decide]
    rw [Option.some_bind, dRun_append, w2', Option.some_bind]
    decide
  · intro fuel hf
    have hlen : ("seq(" ++ ts ++ ")").toList.length = ts.toList.length + 5 := by
      rw [hlist]; simp
    cases fuel with
    | zero => omega
    | succ m =>
        rw [hlist, FromStringAux_succ, FromStringStep_seq w1]
        rw [w3 m (by omega)]
        rfl

theorem RTP_map (k : DataType) (v : TypeProto) (ih : RTP v) : RTP (.mapType k v) := by
  intro hwf s hs
  have hw : (k != DataType.undefined) = true ∧ WF v = true := by
    simpa [WF, Bool.and_eq_true] using hwf
  obtain ⟨nm, h1, h2, h3, h4⟩ := prim_facts k hw.1
  simp only [OpUtils.ToString] at hs
  rw [h1] at hs
  cases hv : OpUtils.ToString v with
  | none => rw [hv] at hs; exact absurd hs (by simp)
  | some vs =>
  rw [hv] at hs
  injection hs with hs
  subst hs
  obtain ⟨w1, w2, w3⟩ := ih hw.2 vs hv
  have hcm : ∀ c ∈ nm.toList, (c == ',') = false := fun c hc => (h3 c hc).2.1
  have plain : ∀ c ∈ nm.toList, PlainChar c := fun c hc => (h3 c hc).1
  have hlist : ("map(" ++ nm ++ "," ++ vs ++ ")").toList
      = 'm' :: 'a' :: 'p' :: '(' ::((nm.toList ++ ',' ::vs.toList) ++ [')']) := by
    simp [String.toList, String.data_append]
  have happ : ("map(" ++ nm ++ "," ++ vs ++ ")").toList
      = ['m','a','p','('] ++ ((nm.toList ++ ',' ::vs.toList) ++ [')']) := hlist
  have w2' : dRun vs.toList 1 = some 1 := by
    have := dRun_shift w2
    simpa using this
  refine ⟨?_, ?_, ?_⟩
  · rw [hlist]
    exact wsFree_cons rfl (wsFree_cons rfl (wsFree_cons rfl (wsFree_cons rfl
      (wsFree_append.mpr ⟨wsFree_append.mpr ⟨h2, wsFree_cons rfl w1⟩,
        wsFree_cons rfl wsFree_nil⟩))))
  · rw [happ, dRun_append]
    rw [show dRun ['m','a','p','('] 0 = some 1 from by decide, Option.some_bind]
    rw [dRun_append, dRun_append, dRun_plain plain 1, Option.some_bind]
    rw [show dRun (',' ::vs.toList) 1 = dRun vs.toList 1 from by
      rw [dRun, if_pos rfl, if_pos (by decide : (0:Int) < 1)]]
    rw [w2', Option.some_bind]
    decide
  · intro fuel hf
    have hlen : ("map(" ++ nm ++ "," ++ vs ++ ")").toList.length
        = nm.toList.length + vs.toList.length + 6 := by
      rw [hlist]; simp; omega
    cases fuel with
    | zero => omega
    | succ m =>
        rw [hlist, FromStringAux_succ, FromStringStep_map h2 hcm w1]
        rw [show String.mk nm.toList = nm from rfl, h4]
        show (OpUtils.FromStringAux m vs.toList).map (TypeProto.mapType k)
          = some (.mapType k v)
        rw [w3 m (by omega)]
        rfl

theorem ParseFieldSegs_cons {nm ts : List Char} (hnm : WsFree nm)
    (hcolon : ∀ c ∈ nm, (c == ':') = false)
    (child : List Char → Option TypeProto) (rest : List StringRange) :
    OpUtils.ParseFieldSegs child (StringRange.mk (nm ++ ':' ::ts) [] :: rest) =
      (match child ts, OpUtils.ParseFieldSegs child rest with
       | some t, some fr => some (FieldList.cons (String.mk nm) t fr)
       | _, _ => none) := by
  have eFind : (StringRange.mk (nm ++ ':' ::ts) []).Find ':' = some nm.length := by
    rw [StringRange.Find]
    have := findIdx_go hcolon ts 0
    simpa using this
  have eTake : (nm ++ ':' ::ts).take nm.length = nm := List.take_left nm _
  have eN : StringRange.ofList nm = ⟨nm, []⟩ := ofList_wsFree hnm
  have eStripN : (StringRange.mk (nm ++ ':' ::ts) []).LStripN nm.length
      = (true, ⟨':' ::ts, [] ++ nm⟩) := LStripN_append nm (':' ::ts) []
  have eColon : (StringRange.mk (':' ::ts) ([] ++ nm)).LStripLit [':']
      = (true, ⟨ts, ([] ++ nm) ++ [':']⟩) := LStripLit_cons_single
  rw [OpUtils.ParseFieldSegs, eFind]
  show (let n := StringRange.ofList ((nm ++ ':' ::ts).take nm.length)
        let f1 := ((StringRange.mk (nm ++ ':' ::ts) []).LStripN nm.length).2
        let f2 := (f1.LStripLit [':']).2
        match child f2.window, OpUtils.ParseFieldSegs child rest with
        | some t, some r => some (FieldList.cons (String.mk n.window) t r)
        | _, _ => none)
      = (match child ts, OpUtils.ParseFieldSegs child rest with
         | some t, some fr => some (FieldList.cons (String.mk nm) t fr)
         | _, _ => none)
  rw [eTake, eN, eStripN]
  show (let f2 := ((StringRange.mk (':' ::ts) ([] ++ nm)).LStripLit [':']).2
        match child f2.window, OpUtils.ParseFieldSegs child rest with
        | some t, some r => some (FieldList.cons (String.mk nm) t r)
        | _, _ => none)
      = (match child ts, OpUtils.ParseFieldSegs child rest with
         | some t, some fr => some (FieldList.cons (String.mk nm) t fr)
         | _, _ => none)
  rw [eColon]

theorem RTQ_nil : RTQ .nil := by
  intro _ body hbody
  exact absurd hbody (by simp [OpUtils.ToStringFields])

theorem RTQ_cons (n : String) (t : TypeProto) (r : FieldList)
    (iht : RTP t) (ihr : RTQ r) : RTQ (.cons n t r) := by
  intro hwfl body hbody
  have hp : NameOK n = true ∧ WF t = true ∧ WFL r = true := by
    simpa [WFL, Bool.and_eq_true, and_assoc] using hwfl
  have hnc := NameOK_chars hp.1
  have hnmws : WsFree n.toList := fun c hc => (hnc c hc).1
  have hnmplain : ∀ c ∈ n.toList, PlainChar c := fun c hc => (hnc c hc).2.1
  have hncolon : ∀ c ∈ n.toList, (c == ':') = false := fun c hc => (hnc c hc).2.2.1
  cases r with
  | nil =>
      simp only [OpUtils.ToStringFields] at hbody
      obtain ⟨ts, hts, rfl⟩ := Option.map_eq_some'.mp hbody
      obtain ⟨p1, p2, p3⟩ := iht hp.2.1 ts hts
      have blist : (n ++ ":" ++ ts).toList = n.toList ++ ':' ::ts.toList := by
        simp [String.toList, String.data_append]
      have hws : WsFree (n.toList ++ ':' ::ts.toList) :=
        wsFree_append.mpr ⟨hnmws, wsFree_cons rfl p1⟩
      have hseg0 : dRun (n.toList ++ ':' ::ts.toList) 0 = some 0 := by
        rw [dRun_append, dRun_plain hnmplain 0, Option.some_bind]
        rw [show dRun (':' ::ts.toList) 0 = dRun ts.toList 0 from by
          rw [dRun, if_neg (by decide : ¬((':':Char) = ',')),
            if_neg (by decide : ¬((':':Char) = '(')),
            if_neg (by decide : ¬((':':Char) = ')'))]]
        exact p2
      have hseg1 : dRun (n.toList ++ ':' ::ts.toList) 1 = some 1 := by
        have := dRun_shift hseg0
        simpa using this
      refine ⟨by rw [blist]; exact hws, by rw [blist]; exact hseg1, ?_⟩
      intro fuel hf
      have hlen : (n ++ ":" ++ ts).toList.length
          = n.toList.length + ts.toList.length + 1 := by
        rw [blist]; simp; omega
      have hsplit : splitD (n ++ ":" ++ ts).toList 0 []
          = [⟨n.toList ++ ':' ::ts.toList, []⟩] := by
        rw [blist]
        have h0 := @splitD_consume (n.toList ++ ':' :: ts.toList) 0 0 [] [] hseg0
        simp only [List.append_nil, List.nil_append] at h0
        rw [h0]
        rw [show splitD [] 0 (n.toList ++ ':' ::ts.toList)
          = [StringRange.ofList (n.toList ++ ':' ::ts.toList)] from rfl]
        rw [ofList_wsFree hws]
      rw [hsplit, ParseFieldSegs_cons hnmws hncolon]
      rw [p3 fuel (by omega)]
      rfl
  | cons n2 t2 r2 =>
      simp only [OpUtils.ToStringFields] at hbody
      cases hts : OpUtils.ToString t with
      | none => rw [hts] at hbody; exact absurd hbody (by simp)
      | some ts =>
      cases hrb : OpUtils.ToStringFields (.cons n2 t2 r2) with
      | none => rw [hts, hrb] at hbody; exact absurd hbody (by simp)
      | some rb =>
      rw [hts, hrb] at hbody
      injection hbody with hbody
      subst hbody
      obtain ⟨p1, p2, p3⟩ := iht hp.2.1 ts hts
      obtain ⟨q1, q2, q3⟩ := ihr hp.2.2 rb hrb
      have blist : (n ++ ":" ++ ts ++ "," ++ rb).toList
          = (n.toList ++ ':' ::ts.toList) ++ ',' ::rb.toList := by
        simp [String.toList, String.data_append]
      have hws : WsFree (n.toList ++ ':' ::ts.toList) :=
        wsFree_append.mpr ⟨hnmws, wsFree_cons rfl p1⟩
      have hseg0 : dRun (n.toList ++ ':' ::ts.toList) 0 = some 0 := by
        rw [dRun_append, dRun_plain hnmplain 0, Option.some_bind]
        rw [show dRun (':' ::ts.toList) 0 = dRun ts.toList 0 from by
          rw [dRun, if_neg (by decide : ¬((':':Char) = ',')),
            if_neg (by decide : ¬((':':Char) = '(')),
            if_neg (by decide : ¬((':':Char) = ')'))]]
        exact p2
      have hseg1 : dRun (n.toList ++ ':' ::ts.toList) 1 = some 1 := by
        have := dRun_shift hseg0
        simpa using this
      refine ⟨?_, ?_, ?_⟩
      · rw [blist]
        exact wsFree_append.mpr ⟨hws, wsFree_cons rfl q1⟩
      · rw [blist, dRun_append, hseg1, Option.some_bind]
        rw [show dRun (',' ::rb.toList) 1 = dRun rb.toList 1 from by
          rw [dRun, if_pos rfl, if_pos (by decide : (0:Int) < 1)]]
        exact q2
      · intro fuel hf
        have hlen : (n ++ ":" ++ ts ++ "," ++ rb).toList.length
            = n.toList.length + ts.toList.length + rb.toList.length + 2 := by
          rw [blist]; simp; omega
        have hsplit : splitD (n ++ ":" ++ ts ++ "," ++ rb).toList 0 []
            = ⟨n.toList ++ ':' ::ts.toList, []⟩ :: splitD rb.toList 0 [] := by
          rw [blist]
          rw [splitD_consume [] (',' ::rb.toList) hseg0]
          rw [show ([] : List Char) ++ (n.toList ++ ':' ::ts.toList)
            = n.toList ++ ':' ::ts.toList from by simp]
          rw [splitD, if_pos rfl, if_pos rfl]
          rw [ofList_wsFree hws]
        rw [hsplit, ParseFieldSegs_cons hnmws hncolon]
        rw [p3 fuel (by omega), q3 fuel (by omega)]
        rfl

theorem RTP_record (fs : FieldList) (ih : RTQ fs) : RTP (.recordType fs) := by
  intro hwf s hs
  have hw : WFL fs = true := by
    simp only [WF, Bool.and_eq_true] at hwf
    exact hwf.2
  simp only [OpUtils.ToString] at hs
  obtain ⟨body, hbody, rfl⟩ := Option.map_eq_some'.mp hs
  obtain ⟨q1, q2, q3⟩ := ih hw body hbody
  have hlist : ("record(" ++ body ++ ")").toList
      = 'r' :: 'e' :: 'c' :: 'o' :: 'r' :: 'd' :: '(' ::(body.toList ++ [')']) := by
    simp [String.toList, String.data_append]
  have happ : ("record(" ++ body ++ ")").toList
      = ['r','e','c','o','r','d','('] ++ (body.toList ++ [')']) := hlist
  refine ⟨?_, ?_, ?_⟩
  · rw [hlist]
    exact wsFree_cons rfl (wsFree_cons rfl (wsFree_cons rfl (wsFree_cons rfl
      (wsFree_cons rfl (wsFree_cons rfl (wsFree_cons rfl
        (wsFree_append.mpr ⟨q1, wsFree_cons rfl wsFree_nil⟩)))))))
  · rw [happ, dRun_append]
    rw [show dRun ['r','e','c','o','r','d','('] 0 = some 1 from by decide,
      Option.some_bind, dRun_append, q2, Option.some_bind]
    decide
  · intro fuel hf
    have hlen : ("record(" ++ body ++ ")").toList.length = body.toList.length + 8 := by
      rw [hlist]; simp
    cases fuel with
    | zero => omega
    | succ m =>
        rw [hlist, FromStringAux_succ, FromStringStep_record q1]
        rw [q3 m (by omega)]
        rfl

theorem RTP_union (cs : FieldList) (ih : RTQ cs) : RTP (.unionType cs) := by
  intro hwf s hs
  have hw : WFL cs = true := by
    simp only [WF, Bool.and_eq_true] at hwf
    exact hwf.2
  simp only [OpUtils.ToString] at hs
  obtain ⟨body, hbody, rfl⟩ := Option.map_eq_some'.mp hs
  obtain ⟨q1, q2, q3⟩ := ih hw body hbody
  have hlist : ("union(" ++ body ++ ")").toList
      = 'u' :: 'n' :: 'i' :: 'o' :: 'n' :: '(' ::(body.toList ++ [')']) := by
    simp [String.toList, String.data_append]
  have happ : ("union(" ++ body ++ ")").toList
      = ['u','n','i','o','n','('] ++ (body.toList ++ [')']) := hlist
  refine ⟨?_, ?_, ?_⟩
  · rw [hlist]
    exact wsFree_cons rfl (wsFree_cons rfl (wsFree_cons rfl (wsFree_cons rfl
      (wsFree_cons rfl (wsFree_cons rfl
        (wsFree_append.mpr ⟨q1, wsFree_cons rfl wsFree_nil⟩))))))
  · rw [happ, dRun_append]
    rw [show dRun ['u','n','i','o','n','('] 0 = some 1 from by decide,
      Option.some_bind, dRun_append, q2, Option.some_bind]
    decide
  · intro fuel hf
    have hlen : ("union(" ++ body ++ ")").toList.length = body.toList.length + 7 := by
      rw [hlist]; simp
    cases fuel with
    | zero => omega
    | succ m =>
        rw [hlist, FromStringAux_succ, FromStringStep_union q1]
        rw [q3 m (by omega)]
        rfl

/-- The round-trip property holds for every descriptor (mutual induction
with `RTQ` over the field lists). -/
theorem RTP_all (T : TypeProto) : RTP T :=
  @TypeProto.rec RTP RTQ
    RTP_tensor RTP_sparse RTP_seq RTP_map RTP_record RTP_union
    RTQ_nil RTQ_cons T

/-- Round-trip: parsing the serialization of a well-formed descriptor
recovers it. -/
theorem FromString_ToString (T : TypeProto) (hwf : WF T = true) (s : String)
    (hs : OpUtils.ToString T = some s) : OpUtils.FromString s = some T := by
  obtain ⟨-, -, hp⟩ := RTP_all T hwf s hs
  exact hp (s.length + 1) (by rw [show s.length = s.toList.length from rfl]; omega)

/-- Serialization is total on well-formed descriptors (mutual induction). -/
theorem ToString_total (T : TypeProto) : WF T = true → ∃ s, OpUtils.ToString T = some s := by
  refine @TypeProto.rec (fun T => WF T = true → ∃ s, OpUtils.ToString T = some s)
    (fun fs => WFL fs = true → fs ≠ .nil → ∃ b, OpUtils.ToStringFields fs = some b)
    ?_ ?_ ?_ ?_ ?_ ?_ ?_ ?_ T
  · intro e he
    obtain ⟨nm, h1, -, -, -⟩ := prim_facts e he
    exact ⟨nm, h1⟩
  · intro e he
    obtain ⟨nm, h1, -, -, -⟩ := prim_facts e he
    exact ⟨"sparse(" ++ nm ++ ")", by simp only [OpUtils.ToString, h1, Option.map_some']⟩
  · intro t ih h
    obtain ⟨ts, hts⟩ := ih h
    exact ⟨"seq(" ++ ts ++ ")", by simp only [OpUtils.ToString, hts, Option.map_some']⟩
  · intro k v ih h
    have hw : (k != DataType.undefined) = true ∧ WF v = true := by
      simpa [WF, Bool.and_eq_true] using h
    obtain ⟨nm, h1, -, -, -⟩ := prim_facts k hw.1
    obtain ⟨vs, hvs⟩ := ih hw.2
    exact ⟨"map(" ++ nm ++ "," ++ vs ++ ")", by simp only [OpUtils.ToString, h1, hvs]⟩
  · intro fs ih h
    have hw2 : WFL fs = true := by
      simp only [WF, Bool.and_eq_true] at h
      exact h.2
    have hne : fs ≠ .nil := by
      intro hc
      subst hc
      simp [WF] at h
    obtain ⟨b, hb⟩ := ih hw2 hne
    exact ⟨"record(" ++ b ++ ")", by simp only [OpUtils.ToString, hb, Option.map_some']⟩
  · intro cs ih h
    have hw2 : WFL cs = true := by
      simp only [WF, Bool.and_eq_true] at h
      exact h.2
    have hne : cs ≠ .nil := by
      intro hc
      subst hc
      simp [WF] at h
    obtain ⟨b, hb⟩ := ih hw2 hne
    exact ⟨"union(" ++ b ++ ")", by simp only [OpUtils.ToString, hb, Option.map_some']⟩
  · intro _ hne
    exact absurd rfl hne
  · intro n t r iht ihr hw _
    have hp : NameOK n = true ∧ WF t = true ∧ WFL r = true := by
      simpa [WFL, Bool.and_eq_true, and_assoc] using hw
    obtain ⟨ts, hts⟩ := iht hp.2.1
    cases r with
    | nil =>
        exact ⟨n ++ ":" ++ ts,
          by simp only [OpUtils.ToStringFields, hts, Option.map_some']⟩
    | cons n2 t2 r2 =>
        obtain ⟨rb, hrb⟩ := ihr hp.2.2 (fun hc => FieldList.noConfusion hc)
        exact ⟨n ++ ":" ++ ts ++ "," ++ rb,
          by simp only [OpUtils.ToStringFields, hts, hrb]⟩

/-- A handle returned by `ToType` is the canonical string of the interned
descriptor. -/
theorem ToType_handle {m : OpUtils.Registry} {p : TypeProto} {r : OpUtils.Registry}
    {h : String} (hT : OpUtils.ToType m p = some (r, h)) :
    OpUtils.ToString p = some h := by
  rw [OpUtils.ToType] at hT
  cases hts : OpUtils.ToString p with
  | none => rw [hts] at hT; exact absurd hT (by simp)
  | some str =>
      rw [hts] at hT
      by_cases hl : (List.lookup str m).isSome = true
      · simp only [hl, eq_self_iff_true, if_true] at hT
        injection hT with hT
        obtain ⟨he1, he2⟩ := (Prod.mk.injEq _ _ _ _).mp hT
        subst he2
        rfl
      · rw [Bool.not_eq_true] at hl
        simp only [hl, Bool.false_eq_true, if_false] at hT
        injection hT with hT
        obtain ⟨he1, he2⟩ := (Prod.mk.injEq _ _ _ _).mp hT
        subst he2
        rfl

theorem lookup_append_self (m : OpUtils.Registry) (s : String) (p : TypeProto) :
    ((m ++ [(s, p)]).lookup s).isSome = true := by
  induction m with
  | nil => simp [List.lookup]
  | cons a rest ih =>
      rw [List.cons_append]
      by_cases hb : (s == a.1) = true
      · simp only [List.lookup, hb]
        rfl
      · rw [Bool.not_eq_true] at hb
        simp only [List.lookup, hb]
        exact ih

/-- The registry resulting from `ToType` always holds the canonical key. -/
theorem ToType_registry {m : OpUtils.Registry} {p : TypeProto} {r : OpUtils.Registry}
    {h : String} (hT : OpUtils.ToType m p = some (r, h)) :
    (r.lookup h).isSome = true := by
  rw [OpUtils.ToType] at hT
  cases hts : OpUtils.ToString p with
  | none => rw [hts] at hT; exact absurd hT (by simp)
  | some str =>
      rw [hts] at hT
      by_cases hl : (List.lookup str m).isSome = true
      · simp only [hl, eq_self_iff_true, if_true] at hT
        injection hT with hT
        obtain ⟨he1, he2⟩ := (Prod.mk.injEq _ _ _ _).mp hT
        subst he1
        subst he2
        exact hl
      · rw [Bool.not_eq_true] at hl
        simp only [hl, Bool.false_eq_true, if_false] at hT
        injection hT with hT
        obtain ⟨he1, he2⟩ := (Prod.mk.injEq _ _ _ _).mp hT
        subst he2
        rw [← he1]
        exact lookup_append_self m str p

/-! The claims. -/

/-- Claim C1, as stated, is falsified by a field name carrying leading
whitespace: for `T = Record([(" a", DenseTensor(float32))])`, serialization
succeeds and parsing the serialization yields a structurally different
descriptor (the parser trims the name to `"a"`). -/
theorem C1_cex :
    (OpUtils.ToString (.recordType (.cons " a" (.tensorType .float) .nil))).bind
        OpUtils.FromString
      = some (.recordType (.cons "a" (.tensorType .float) .nil))
    ∧ TypeProto.recordType (.cons "a" (.tensorType .float) .nil)
      ≠ .recordType (.cons " a" (.tensorType .float) .nil) := by
  refine ⟨by decide, by decide⟩

/-- Claim C1 (amended): for every constructible TypeDescriptor T over the
registered primitive element kinds, with records/unions non-empty and with
field/choice names free of the delimiter characters and of whitespace,
serialization succeeds and `OpUtils::FromString (OpUtils::ToString T)`
yields a descriptor structurally equal to T, recursively with field/choice
order preserved. -/
theorem C1_round_trip (T : TypeProto) (hwf : WF T = true) :
    ∃ s, OpUtils.ToString T = some s ∧ OpUtils.FromString s = some T := by
  obtain ⟨s, hs⟩ := ToString_total T hwf
  exact ⟨s, hs, FromString_ToString T hwf s hs⟩

/-- Witness for C1 at a concrete nested descriptor. -/
theorem C1_round_trip_witness :
    WF (TypeProto.seqType (.mapType .dtString
        (.recordType (.cons "a" (.tensorType .int64) .nil)))) = true
    ∧ ∃ s, OpUtils.ToString (TypeProto.seqType (.mapType .dtString
          (.recordType (.cons "a" (.tensorType .int64) .nil)))) = some s
        ∧ OpUtils.FromString s = some (TypeProto.seqType (.mapType .dtString
            (.recordType (.cons "a" (.tensorType .int64) .nil)))) :=
  ⟨by decide, C1_round_trip _ (by decide)⟩

/-- Claim C3, as stated, is falsified: `"tensor(int64)"` is not a registered
primitive name, so the map value position of
`"seq(map(string,tensor(int64)))"` raises InvalidTypeExpression and the
whole parse fails. -/
theorem C3_cex :
    OpUtils.FromString "seq(map(string,tensor(int64)))" = none := by
  decide

/-- Claim C3 (amended): the canonical spelling of a dense tensor is the
bare primitive name, so `"seq(map(string,int64))"` parses to
Sequence(Map(key=string, value=DenseTensor(int64))) and that descriptor
serializes back to the identical string, while the wrapped spelling
`"seq(map(string,tensor(int64)))"` fails with InvalidTypeExpression. -/
theorem C3_nesting :
    OpUtils.FromString "seq(map(string,int64))"
      = some (.seqType (.mapType .dtString (.tensorType .int64)))
    ∧ OpUtils.ToString (.seqType (.mapType .dtString (.tensorType .int64)))
      = some "seq(map(string,int64))"
    ∧ OpUtils.FromString "seq(map(string,tensor(int64)))" = none := by
  refine ⟨by decide, by decide, by decide⟩

/-- Claim C5: the depth-aware splitter (`OpUtils::SplitRecords`) splits the
interior of `"record(a:tensor(float),b:map(string,tensor(int32)))"` into
exactly the two segments `a:tensor(float)` and `b:map(string,tensor(int32))`
— not three — because the comma inside `map(...)` sits at parenthesis depth
one. -/
theorem C5_split_records :
    OpUtils.SplitRecords
        (StringRange.ofList "a:tensor(float),b:map(string,tensor(int32))".toList)
      = [StringRange.ofList "a:tensor(float)".toList,
         StringRange.ofList "b:map(string,tensor(int32))".toList] := by
  decide

/-- Claim C6: a primitive-name position holding a name absent from the
allowed-names table makes parsing fail with InvalidTypeExpression (`none`),
never silently mapping to the `undefined` kind; in particular
`"tensor(bogus)"` fails. -/
theorem C6_unknown_rejected :
    (∀ s : String, OpUtils.IsValidDataTypeString s = false →
        OpUtils.FromStringData s = none)
    ∧ (∀ (s : String) (k : DataType), OpUtils.FromStringData s = some k →
        k ≠ DataType.undefined)
    ∧ OpUtils.FromString "tensor(bogus)" = none := by
  refine ⟨?_, ?_, by decide⟩
  · intro s h
    rw [OpUtils.FromStringData, if_pos (by simp [h])]
  · intro s k h
    by_cases hv : OpUtils.IsValidDataTypeString s = true
    · have hmem : s ∈ GetAllowedDataTypes := by
        rw [OpUtils.IsValidDataTypeString] at hv
        exact List.elem_iff.mp hv
      simp only [GetAllowedDataTypes, GetTypesWrapper, List.mem_cons,
        List.not_mem_nil, or_false] at hmem
      rcases hmem with rfl|rfl|rfl|rfl|rfl|rfl|rfl|rfl|rfl|rfl|rfl|rfl|rfl|rfl|rfl
      all_goals
        injection h with h2
        subst h2
        decide
    · rw [Bool.not_eq_true] at hv
      rw [OpUtils.FromStringData, if_pos (by simp [hv])] at h
      exact absurd h (by simp)

/-- Witness for C6: the bare name `"bogus"` is rejected, and the valid name
`"float"` maps to a registered (non-undefined) kind. -/
theorem C6_unknown_rejected_witness :
    OpUtils.FromStringData "bogus" = none
    ∧ DataType.float ≠ DataType.undefined :=
  ⟨C6_unknown_rejected.1 "bogus" (by decide),
   C6_unknown_rejected.2.1 "float" DataType.float (by decide)⟩

/-- Claim C2, as stated, is falsified: the text-keyed intern
(`OpUtils::ToType(const std::string&)`) parses its argument and re-serializes
it, so the handle for the differently-whitespaced `"  seq( float )"` is the
canonical `"seq(float)"`, not the raw input text. -/
theorem C2_cex :
    (OpUtils.ToTypeStr [] "  seq( float )").map Prod.snd = some "seq(float)"
    ∧ (OpUtils.ToTypeStr [] "  seq( float )").map Prod.snd ≠ some "  seq( float )" := by
  refine ⟨by decide, by decide⟩

/-- Claim C2 (amended): the text-keyed intern path re-normalizes its
argument through parse followed by serialize before the registry lookup, so
its handle is the canonical string of the parsed descriptor, and any two
input texts that parse to the same descriptor converge to one handle. -/
theorem C2_renormalizes :
    (∀ (m : OpUtils.Registry) (s : String) (r : OpUtils.Registry) (h : String),
        OpUtils.ToTypeStr m s = some (r, h) →
        ∃ p, OpUtils.FromString s = some p ∧ OpUtils.ToString p = some h)
    ∧ (∀ (m : OpUtils.Registry) (s₁ s₂ : String) (r₁ : OpUtils.Registry) (h₁ : String)
         (r₂ : OpUtils.Registry) (h₂ : String),
        OpUtils.FromString s₁ = OpUtils.FromString s₂ →
        OpUtils.ToTypeStr m s₁ = some (r₁, h₁) →
        OpUtils.ToTypeStr r₁ s₂ = some (r₂, h₂) → h₁ = h₂) := by
  constructor
  · intro m s r h hT
    rw [OpUtils.ToTypeStr] at hT
    cases hp : OpUtils.FromString s with
    | none => rw [hp] at hT; exact absurd hT (by simp)
    | some p =>
        rw [hp] at hT
        exact ⟨p, rfl, ToType_handle hT⟩
  · intro m s₁ s₂ r₁ h₁ r₂ h₂ heq hT1 hT2
    rw [OpUtils.ToTypeStr] at hT1 hT2
    cases hp1 : OpUtils.FromString s₁ with
    | none => rw [hp1] at hT1; exact absurd hT1 (by simp)
    | some p1 =>
    cases hp2 : OpUtils.FromString s₂ with
    | none => rw [hp2] at hT2; exact absurd hT2 (by simp)
    | some p2 =>
    rw [hp1] at hT1
    rw [hp2] at hT2
    have hpp : p1 = p2 := by
      rw [hp1, hp2] at heq
      injection heq
    have e1 := ToType_handle hT1
    have e2 := ToType_handle hT2
    rw [hpp] at e1
    rw [e1] at e2
    injection e2

/-- Witness for C2: interning the whitespaced spelling yields the canonical
handle of its parsed descriptor. -/
theorem C2_renormalizes_witness :
    ∃ p, OpUtils.FromString "  seq( float )" = some p
      ∧ OpUtils.ToString p = some "seq(float)" :=
  C2_renormalizes.1 [] "  seq( float )"
    [("seq(float)", .seqType (.tensorType .float))] "seq(float)" (by decide)

/-- Claim C4, as stated, is falsified: the utils.cc switch registers 15
primitive names (the spec's own kind list — bool, string, float16, float,
double, four int widths, four uint widths, complex64, complex128 — counts
15), not 14. -/
theorem C4_cex :
    ((List.filterMap OpUtils.ToStringData
        [DataType.undefined, .dtBool, .dtString, .float16, .float, .double,
         .int8, .int16, .int32, .int64, .uint8, .uint16, .uint32, .uint64,
         .complex64, .complex128]).length = 15)
    ∧ (List.filterMap OpUtils.ToStringData
        [DataType.undefined, .dtBool, .dtString, .float16, .float, .double,
         .int8, .int16, .int32, .int64, .uint8, .uint16, .uint32, .uint64,
         .complex64, .complex128]).Nodup
    ∧ ¬ ((List.filterMap OpUtils.ToStringData
        [DataType.undefined, .dtBool, .dtString, .float16, .float, .double,
         .int8, .int16, .int32, .int64, .uint8, .uint16, .uint32, .uint64,
         .complex64, .complex128]).length = 14) := by
  refine ⟨by decide, by decide, by decide⟩

/-- Claim C4 (amended): exactly 15 canonical primitive names exist; the
kind-to-name mapping is total on the registered kinds and injective, every
emitted name round-trips through the parser chain and sits in the allowed
table, and any name outside the table is rejected. -/
theorem C4_primitive_table :
    GetAllowedDataTypes.length = 15 ∧ GetAllowedDataTypes.Nodup
    ∧ (∀ e : DataType, e ≠ .undefined → ∃ nm, OpUtils.ToStringData e = some nm
        ∧ OpUtils.FromStringData nm = some e ∧ nm ∈ GetAllowedDataTypes)
    ∧ (∀ e₁ e₂ : DataType, OpUtils.ToStringData e₁ = OpUtils.ToStringData e₂ →
        e₁ ≠ .undefined → e₁ = e₂)
    ∧ (∀ s : String, OpUtils.IsValidDataTypeString s = false →
        OpUtils.FromStringData s = none) := by
  refine ⟨by decide, by decide, by decide, by decide, ?_⟩
  intro s h
  rw [OpUtils.FromStringData, if_pos (by simp [h])]

/-- Witness for C4: instantiation at the float32 kind and at an
out-of-table name. -/
theorem C4_primitive_table_witness :
    (∃ nm, OpUtils.ToStringData DataType.float = some nm
      ∧ OpUtils.FromStringData nm = some DataType.float ∧ nm ∈ GetAllowedDataTypes)
    ∧ OpUtils.FromStringData "tensor(float)" = none :=
  ⟨C4_primitive_table.2.2.1 DataType.float (by decide),
   C4_primitive_table.2.2.2.2 "tensor(float)" (by decide)⟩

/-- Claim C7: interning the serialization of a descriptor twice returns the
identical handle both times and leaves the registry unchanged on the second
call; in general two handles returned by the registry are equal exactly when
the underlying canonical strings are equal (the handle is the stored
canonical-string key, which pointer equality compares). -/
theorem C7_intern_idempotent :
    (∀ (m : OpUtils.Registry) (p : TypeProto) (r : OpUtils.Registry) (h : String),
        OpUtils.ToType m p = some (r, h) → OpUtils.ToString p = some h)
    ∧ (∀ (m : OpUtils.Registry) (p : TypeProto) (r₁ : OpUtils.Registry) (h₁ : String)
         (r₂ : OpUtils.Registry) (h₂ : String),
        OpUtils.ToType m p = some (r₁, h₁) → OpUtils.ToType r₁ p = some (r₂, h₂) →
          h₁ = h₂ ∧ r₂ = r₁)
    ∧ (∀ (m : OpUtils.Registry) (p₁ p₂ : TypeProto) (r₁ : OpUtils.Registry) (h₁ : String)
         (r₂ : OpUtils.Registry) (h₂ : String),
        OpUtils.ToType m p₁ = some (r₁, h₁) → OpUtils.ToType r₁ p₂ = some (r₂, h₂) →
          (h₁ = h₂ ↔ OpUtils.ToString p₁ = OpUtils.ToString p₂)) := by
  refine ⟨fun m p r h hT => ToType_handle hT, ?_, ?_⟩
  · intro m p r₁ h₁ r₂ h₂ hT1 hT2
    have e1 := ToType_handle hT1
    have hreg := ToType_registry hT1
    rw [OpUtils.ToType, e1] at hT2
    simp only [hreg, eq_self_iff_true, if_true] at hT2
    injection hT2 with hT2
    obtain ⟨he1, he2⟩ := (Prod.mk.injEq _ _ _ _).mp hT2
    exact ⟨he2, he1.symm⟩
  · intro m p₁ p₂ r₁ h₁ r₂ h₂ hT1 hT2
    have e1 := ToType_handle hT1
    have e2 := ToType_handle hT2
    constructor
    · intro hh
      rw [e1, e2, hh]
    · intro hss
      rw [e1, e2] at hss
      injection hss

/-- Witness for C7: interning `DenseTensor(float32)` twice from the empty
registry returns the handle `"float"` both times and leaves the registry
unchanged on the second call. -/
theorem C7_intern_idempotent_witness :
    "float" = "float"
    ∧ [("float", TypeProto.tensorType DataType.float)]
      = [("float", TypeProto.tensorType DataType.float)] :=
  C7_intern_idempotent.2.1 [] (.tensorType .float)
    [("float", .tensorType .float)] "float"
    [("float", .tensorType .float)] "float" (by decide) (by decide)

/-- Claim C9: every `StringRange` operation is total on empty windows, and a
strip request exceeding the window (a count larger than the window size, or
a literal longer than the window) is a no-op returning `false`, never an
error. -/
theorem C9_scanner_total :
    ∀ (r : StringRange) (n : Nat) (p : List Char) (c : Char),
      (r.window.length < n → r.LStripN n = (false, r) ∧ r.RStripN n = (false, r))
      ∧ (r.window.length < p.length →
          r.LStripLit p = (false, r) ∧ r.RStripLit p = (false, r))
      ∧ (r.window = [] →
          r.LStripWs = (false, r) ∧ r.RStripWs = (false, r)
          ∧ r.LAndRStrip = (false, r) ∧ r.Find c = none
          ∧ (0 < p.length → r.LStripLit p = (false, r) ∧ r.RStripLit p = (false, r))) := by
  intro r n p c
  refine ⟨fun hn => ⟨?_, ?_⟩, fun hp => ⟨?_, ?_⟩, fun he => ⟨?_, ?_, ?_, ?_, fun h0 => ⟨?_, ?_⟩⟩⟩
  · rw [StringRange.LStripN, if_neg (by omega)]
  · rw [StringRange.RStripN, if_neg (by omega)]
  · rw [StringRange.LStripLit, if_neg (fun hs => absurd hs.1 (by omega))]
  · rw [StringRange.RStripLit, if_neg (fun hs => absurd hs.1 (by omega))]
  · simp [StringRange.LStripWs, he]
  · simp [StringRange.RStripWs, he]
  · simp [StringRange.LAndRStrip, StringRange.LStripWs, StringRange.RStripWs, he]
  · simp [StringRange.Find, he, List.findIdx?]
  · rw [StringRange.LStripLit, if_neg (fun hs => by
      have h1 := hs.1
      rw [he] at h1
      simp only [List.length_nil] at h1
      omega)]
  · rw [StringRange.RStripLit, if_neg (fun hs => by
      have h1 := hs.1
      rw [he] at h1
      simp only [List.length_nil] at h1
      omega)]

/-- Witness for C9: oversize strips on the window `"ab"` and all operations
on an empty window. -/
theorem C9_scanner_total_witness :
    ((StringRange.mk ['a','b'] []).LStripN 3 = (false, StringRange.mk ['a','b'] [])
      ∧ (StringRange.mk ['a','b'] []).RStripN 3 = (false, StringRange.mk ['a','b'] []))
    ∧ ((StringRange.mk ['a','b'] []).LStripLit ['a','b','c']
          = (false, StringRange.mk ['a','b'] [])
      ∧ (StringRange.mk ['a','b'] []).RStripLit ['a','b','c']
          = (false, StringRange.mk ['a','b'] []))
    ∧ ((StringRange.mk [] []).LStripWs = (false, StringRange.mk [] [])
      ∧ (StringRange.mk [] []).RStripWs = (false, StringRange.mk [] [])
      ∧ (StringRange.mk [] []).LAndRStrip = (false, StringRange.mk [] [])
      ∧ (StringRange.mk [] []).Find 'x' = none
      ∧ ((0 < (['a'] : List Char).length →
          (StringRange.mk [] []).LStripLit ['a'] = (false, StringRange.mk [] [])
          ∧ (StringRange.mk [] []).RStripLit ['a'] = (false, StringRange.mk [] [])))) :=
  ⟨(C9_scanner_total (StringRange.mk ['a','b'] []) 3 ['a','b','c'] 'x').1 (by decide),
   (C9_scanner_total (StringRange.mk ['a','b'] []) 3 ['a','b','c'] 'x').2.1 (by decide),
   (C9_scanner_total (StringRange.mk [] []) 1 ['a'] 'x').2.2 rfl⟩

/-- A successful dense-tensor parse means the whole (trimmed) input was
looked up as a primitive name: every branch of `FromStringStep` other than
the trailing dense-tensor arm produces a different constructor. -/
theorem FromStringStep_tensor_valid {child : List Char → Option TypeProto}
    {l : List Char} {k : DataType}
    (h : OpUtils.FromStringStep child l = some (.tensorType k)) :
    OpUtils.IsValidDataTypeString (String.mk (StringRange.ofList l).window) = true := by
  rw [OpUtils.FromStringStep] at h
  dsimp only at h
  split at h
  · obtain ⟨x, -, hx⟩ := Option.map_eq_some'.mp h
    exact absurd hx (by simp)
  · split at h
    · split at h
      · exact absurd h (by simp)
      · split at h
        · exact absurd h (by simp)
        · obtain ⟨x, -, hx⟩ := Option.map_eq_some'.mp h
          exact absurd hx (by simp)
    · split at h
      · obtain ⟨x, -, hx⟩ := Option.map_eq_some'.mp h
        exact absurd hx (by simp)
      · split at h
        · obtain ⟨x, -, hx⟩ := Option.map_eq_some'.mp h
          exact absurd hx (by simp)
        · split at h
          · obtain ⟨x, -, hx⟩ := Option.map_eq_some'.mp h
            exact absurd hx (by simp)
          · obtain ⟨x, hx, -⟩ := Option.map_eq_some'.mp h
            by_cases hv : OpUtils.IsValidDataTypeString
                (String.mk (StringRange.ofList l).window) = true
            · exact hv
            · rw [Bool.not_eq_true] at hv
              rw [OpUtils.FromStringData, if_pos (by simp [hv])] at hx
              exact absurd hx (by simp)

/-- Claim C10: serializing a dense tensor emits only the bare primitive
element name (no `tensor(...)` wrapper); conversely a successful
dense-tensor parse means the whole trimmed input was validated as a
registered primitive name, and since `"tensor(float)"` is not one, it is
rejected. -/
theorem C10_dense_bare :
    (∀ e : DataType, OpUtils.ToString (.tensorType e) = OpUtils.ToStringData e)
    ∧ OpUtils.ToString (.tensorType .float) = some "float"
    ∧ OpUtils.FromString "tensor(float)" = none
    ∧ (∀ (s : String) (k : DataType), OpUtils.FromString s = some (.tensorType k) →
        OpUtils.IsValidDataTypeString
          (String.mk (StringRange.ofList s.toList).window) = true) := by
  refine ⟨fun e => rfl, by decide, by decide, ?_⟩
  intro s k h
  rw [OpUtils.FromString] at h
  exact FromStringStep_tensor_valid h

/-- Witness for C10: the bare spelling `"float"` parses as a dense tensor
and its trimmed window is a registered primitive name. -/
theorem C10_dense_bare_witness :
    OpUtils.IsValidDataTypeString
      (String.mk (StringRange.ofList "float".toList).window) = true :=
  C10_dense_bare.2.2.2 "float" DataType.float (by decide)

end LotusIR
